import Mathlib

/-!
Verification development for the phase2 MPC library (src/lib.rs).

Modelling conventions (shallow embedding):

* The BLS12-381 curve library is an external collaborator of the core
  (spec section 1): the two source groups and the target group are
  prime-order cyclic groups equipped with a bilinear pairing.  We model
  them in the standard generic-group (discrete-log) fashion: a group
  element of G1, G2 or GT is its discrete logarithm, an element of
  `ZMod p` for the group order `p`; the group operation is addition of
  logs, scalar multiplication by `Fr = ZMod p` is field multiplication,
  the generator is `1`, the identity is `0`, and the pairing
  `e : G1 x G2 -> GT` is multiplication of logs, which is exactly
  bilinear and non-degenerate for prime `p`.

* Blake2b-64 and the ChaCha-seeded hash-to-G2 sampler are external
  black boxes used only deterministically; they are carried as the
  fields of a `Ctx` value (an arbitrary function each).  Byte streams
  are modelled as `List Nat` of symbols: one symbol per serialized
  group element (the fixed-width uncompressed encoding of the external
  library), one symbol per 64-byte digest, one symbol per big-endian
  u32 length prefix (written modulo 2^32, as the `as u32` cast does).
  A symbol `b` decodes to a group element iff `b < p` (invalid
  encodings fail to decode), and `0` is the point at infinity.

* RNG outputs (the scalar delta, the G1 point s, the batch-check
  scalars rho) are passed to the modelled functions as explicit
  arguments, so every theorem quantifies over all possible samplings.

* The parallel kernels (QAP chunk evaluation, batch_exp, merge_pairs)
  only combine independent per-element results with a commutative
  associative group addition, so their denotation is the corresponding
  sequential map / sum, which is how they are written here.
-/

set_option autoImplicit false

namespace Phase2

/-- Bellman `SynthesisError`, restricted to the variants
`MPCParameters::new` can produce in this model: the two structured
failures and the `IoError` wrapper for transcript-read failures.
(Synthesis failures of the circuit itself are outside the model: a
circuit is represented by the constraint-system calls it makes.) -/
inductive SynthesisError where
  | PolynomialDegreeTooLarge
  | UnconstrainedVariable
  | IoError
deriving DecidableEq

/-- Scalar field inversion of the external library (`Scalar::invert`),
modelled by Fermat's little theorem: for prime `p` and `x` nonzero,
`x ^ (p - 2)` is the multiplicative inverse.  (The Mathlib `Inv (ZMod p)`
instance is not kernel-reducible, so we use the power form, which is.) -/
def fieldInv {p : ℕ} (x : ZMod p) : ZMod p := x ^ (p - 2)

/-- Uncompressed serialization of an affine point (G1 or G2): one stream
symbol holding the canonical representative of the log. -/
def encPt {p : ℕ} (x : ZMod p) : List ℕ := [x.val]

/-- Decoding of one point from a stream (`from_uncompressed` /
`from_uncompressed_unchecked`).  A symbol decodes iff it is `< p`;
in the discrete-log model every decoded element is automatically on the
curve and in the subgroup, so the checked and unchecked variants of the
external library coincide. -/
def readPtU (p : ℕ) (s : List ℕ) : Option (ZMod p × List ℕ) :=
  match s with
  | [] => none
  | b :: rest => if b < p then some ((b : ZMod p), rest) else none

/-- Decoding of one point, rejecting the point at infinity (the
`is_identity` guards that follow every deserialization in the source). -/
def readPtNZ (p : ℕ) (s : List ℕ) : Option (ZMod p × List ℕ) :=
  match readPtU p s with
  | none => none
  | some (x, rest) => if x = 0 then none else some (x, rest)

/-- Decoding of `n` consecutive points, each rejected if it is the
identity. -/
def readVecNZ (p : ℕ) : ℕ → List ℕ → Option (List (ZMod p) × List ℕ)
  | 0, s => some ([], s)
  | n + 1, s =>
    match readPtNZ p s with
    | none => none
    | some (x, rest) =>
      match readVecNZ p n rest with
      | none => none
      | some (v, rest') => some (x :: v, rest')

/-- Serialization of a query vector: a 32-bit big-endian length prefix
(the length modulo 2^32, as the `as u32` cast computes) followed by the
uncompressed points. -/
def writeLenList {p : ℕ} (v : List (ZMod p)) : List ℕ :=
  [v.length % 2 ^ 32] ++ (v.map encPt).flatten

/-- Deserialization of a length-prefixed query vector, rejecting
identity points. -/
def readLenListNZ (p : ℕ) (s : List ℕ) : Option (List (ZMod p) × List ℕ) :=
  match s with
  | [] => none
  | n :: rest => readVecNZ p n rest

/-- Source `same_ratio((P1,P2),(Q1,Q2))`: the pairing test
`e(P1,Q2) == e(P2,Q1)`.  In the log model `e` is multiplication. -/
def same_ratio {p : ℕ} (g1 : ZMod p × ZMod p) (g2 : ZMod p × ZMod p) : Bool :=
  decide (g1.1 * g2.2 = g1.2 * g2.1)

/-- Source `merge_pairs(v1, v2)`: with `rho j` the scalar sampled for
index `j`, the pair of random linear combinations
`(sum_j rho j * v1_j, sum_j rho j * v2_j)`.  The parallel chunked
accumulation of the source denotes this sum because group addition is
commutative and associative. -/
def merge_pairs {p : ℕ} (rho : ℕ → ZMod p) (v1 v2 : List (ZMod p)) :
    ZMod p × ZMod p :=
  ((((List.range v1.length).map rho).zipWith (· * ·) v1).sum,
   (((List.range v1.length).map rho).zipWith (· * ·) v2).sum)

/-- Source struct `PublicKey`: the record a contributor publishes. -/
structure PublicKey (p : ℕ) where
  delta_after : ZMod p
  s : ZMod p
  s_delta : ZMod p
  r_delta : ZMod p
  transcript : ℕ
deriving DecidableEq

/-- Source `PublicKey::write`: `delta_after | s | s_delta | r_delta |
transcript`, all uncompressed. -/
def PublicKey.write {p : ℕ} (pk : PublicKey p) : List ℕ :=
  encPt pk.delta_after ++ encPt pk.s ++ encPt pk.s_delta ++
    encPt pk.r_delta ++ [pk.transcript]

/-- Source `PublicKey::read`: four points, each rejected when the
decoding fails or the point is the identity, then the 64-byte
transcript. -/
def PublicKey.read (p : ℕ) (s : List ℕ) : Option (PublicKey p × List ℕ) := do
  let (delta_after, s) ← readPtNZ p s
  let (sp, s) ← readPtNZ p s
  let (s_delta, s) ← readPtNZ p s
  let (r_delta, s) ← readPtNZ p s
  match s with
  | [] => none
  | t :: rest => pure (⟨delta_after, sp, s_delta, r_delta, t⟩, rest)

/-- Bellman `VerifyingKey` as used by the source (the fixed part of the
Groth16 verifying key plus the IC query). -/
structure VerifyingKey (p : ℕ) where
  alpha_g1 : ZMod p
  beta_g1 : ZMod p
  beta_g2 : ZMod p
  gamma_g2 : ZMod p
  delta_g1 : ZMod p
  delta_g2 : ZMod p
  ic : List (ZMod p)
deriving DecidableEq

/-- Modelled from the spec: bellman's `VerifyingKey` serialization
(external to this repository) — the six fixed points uncompressed,
followed by the length-prefixed IC query (spec section 6). -/
def VerifyingKey.write {p : ℕ} (vk : VerifyingKey p) : List ℕ :=
  encPt vk.alpha_g1 ++ encPt vk.beta_g1 ++ encPt vk.beta_g2 ++
    encPt vk.gamma_g2 ++ encPt vk.delta_g1 ++ encPt vk.delta_g2 ++
    writeLenList vk.ic

/-- Modelled from the spec: bellman's `VerifyingKey` deserialization.
The six fixed points are decoded without identity rejection; the IC
query entries are serialized query points, for which the spec states
that an identity encountered on read is an error (spec section 6). -/
def VerifyingKey.read (p : ℕ) (s : List ℕ) :
    Option (VerifyingKey p × List ℕ) := do
  let (alpha_g1, s) ← readPtU p s
  let (beta_g1, s) ← readPtU p s
  let (beta_g2, s) ← readPtU p s
  let (gamma_g2, s) ← readPtU p s
  let (delta_g1, s) ← readPtU p s
  let (delta_g2, s) ← readPtU p s
  let (ic, s) ← readLenListNZ p s
  pure (⟨alpha_g1, beta_g1, beta_g2, gamma_g2, delta_g1, delta_g2, ic⟩, s)

/-- Bellman `Parameters` as used by the source: the verifying key and
the H, L, A, B_G1, B_G2 query vectors. -/
structure Params (p : ℕ) where
  vk : VerifyingKey p
  h : List (ZMod p)
  l : List (ZMod p)
  a : List (ZMod p)
  b_g1 : List (ZMod p)
  b_g2 : List (ZMod p)
deriving DecidableEq

/-- Modelled from the spec: bellman's `Parameters` serialization — the
verifying key followed by the H, L, A, B_G1, B_G2 queries, each with a
32-bit big-endian length prefix (spec section 6). -/
def Params.write {p : ℕ} (ps : Params p) : List ℕ :=
  ps.vk.write ++ writeLenList ps.h ++ writeLenList ps.l ++
    writeLenList ps.a ++ writeLenList ps.b_g1 ++ writeLenList ps.b_g2

/-- Modelled from the spec: bellman's `Parameters` deserialization.
The `checked` flag selects on-curve validation, which has no
counterpart in the discrete-log model (every decodable symbol is a
subgroup element), so both modes decode identically; identity query
points are an error (spec section 6). -/
def Params.read (p : ℕ) (_checked : Bool) (s : List ℕ) :
    Option (Params p × List ℕ) := do
  let (vk, s) ← VerifyingKey.read p s
  let (h, s) ← readLenListNZ p s
  let (l, s) ← readLenListNZ p s
  let (a, s) ← readLenListNZ p s
  let (b_g1, s) ← readLenListNZ p s
  let (b_g2, s) ← readLenListNZ p s
  pure (⟨vk, h, l, a, b_g1, b_g2⟩, s)

/-- Source struct `MPCParameters`. -/
structure MPCParameters (p : ℕ) where
  params : Params p
  cs_hash : ℕ
  contributions : List (PublicKey p)
deriving DecidableEq

/-- Source `MPCParameters::write`: the parameters, the 64-byte
`cs_hash`, the 32-bit big-endian contribution count (`len as u32`),
then each `PublicKey`. -/
def MPCParameters.write {p : ℕ} (P : MPCParameters p) : List ℕ :=
  P.params.write ++ [P.cs_hash] ++ [P.contributions.length % 2 ^ 32] ++
    (P.contributions.map PublicKey.write).flatten

/-- Decoding of `n` consecutive serialized public keys. -/
def readPubkeys (p : ℕ) : ℕ → List ℕ → Option (List (PublicKey p) × List ℕ)
  | 0, s => some ([], s)
  | n + 1, s =>
    match PublicKey.read p s with
    | none => none
    | some (pk, rest) =>
      match readPubkeys p n rest with
      | none => none
      | some (v, rest') => some (pk :: v, rest')

/-- Source `MPCParameters::read`. -/
def MPCParameters.read (p : ℕ) (checked : Bool) (s : List ℕ) :
    Option (MPCParameters p × List ℕ) := do
  let (params, s) ← Params.read p checked s
  match s with
  | [] => none
  | cs_hash :: s =>
    match s with
    | [] => none
    | n :: s =>
      match readPubkeys p n s with
      | none => none
      | some (contributions, rest) =>
        pure (⟨params, cs_hash, contributions⟩, rest)

/-- External hash primitives of the source, carried as opaque-to-the-
development function values: `hash` is Blake2b-64 over a byte stream
(digests are one symbol), `hashG2` is `hash_to_g2` composed with the
digest (a deterministic ChaCha-seeded G2 sampler). -/
structure Ctx (p : ℕ) where
  hash : List ℕ → ℕ
  hashG2 : ℕ → ZMod p

/-- Bellman `Variable` (`Index::Input` / `Index::Aux`). -/
inductive Var where
  | input (i : ℕ)
  | aux (i : ℕ)
deriving DecidableEq

/-- Source struct `KeypairAssembly`: the constraint collector. -/
structure KeypairAssembly (F : Type) where
  num_inputs : ℕ
  num_aux : ℕ
  num_constraints : ℕ
  at_inputs : List (List (F × ℕ))
  bt_inputs : List (List (F × ℕ))
  ct_inputs : List (List (F × ℕ))
  at_aux : List (List (F × ℕ))
  bt_aux : List (List (F × ℕ))
  ct_aux : List (List (F × ℕ))

/-- The empty collector `MPCParameters::new` starts from. -/
def emptyAssembly (F : Type) : KeypairAssembly F :=
  ⟨0, 0, 0, [], [], [], [], [], []⟩

/-- In-place update of the element at one index of a vector
(`inputs[id].push(..)` in the source).  Out of range it is a no-op;
in the source an out-of-range variable index panics, but every index
produced through the constraint-system interface is in range. -/
def modifyAt {α : Type} (f : α → α) : ℕ → List α → List α
  | _, [] => []
  | 0, x :: xs => f x :: xs
  | n + 1, x :: xs => x :: modifyAt f n xs

/-- Source `eval` inside `enforce`: fold the terms of one linear
combination into the per-variable columns of one matrix, tagging each
coefficient with the current constraint id. -/
def evalLC {F : Type} (l : List (Var × F)) (this_constraint : ℕ)
    (inputs aux : List (List (F × ℕ))) :
    List (List (F × ℕ)) × List (List (F × ℕ)) :=
  l.foldl
    (fun ia term =>
      match term.1 with
      | Var.input id => (modifyAt (· ++ [(term.2, this_constraint)]) id ia.1, ia.2)
      | Var.aux id => (ia.1, modifyAt (· ++ [(term.2, this_constraint)]) id ia.2))
    (inputs, aux)

/-- One operation of the constraint-system interface implemented by
`KeypairAssembly`.  A linear-combination closure is represented by the
term list it builds from the zero seed. -/
inductive CSOp (F : Type) where
  | alloc
  | alloc_input
  | enforce (a b c : List (Var × F))
  | push_namespace
  | pop_namespace

/-- Source `impl ConstraintSystem for KeypairAssembly`: the effect of
one interface call on the collector. -/
def applyOp {F : Type} (A : KeypairAssembly F) : CSOp F → KeypairAssembly F
  | CSOp.alloc =>
    { A with
      num_aux := A.num_aux + 1
      at_aux := A.at_aux ++ [[]]
      bt_aux := A.bt_aux ++ [[]]
      ct_aux := A.ct_aux ++ [[]] }
  | CSOp.alloc_input =>
    { A with
      num_inputs := A.num_inputs + 1
      at_inputs := A.at_inputs ++ [[]]
      bt_inputs := A.bt_inputs ++ [[]]
      ct_inputs := A.ct_inputs ++ [[]] }
  | CSOp.enforce a b c =>
    let ra := evalLC a A.num_constraints A.at_inputs A.at_aux
    let rb := evalLC b A.num_constraints A.bt_inputs A.bt_aux
    let rc := evalLC c A.num_constraints A.ct_inputs A.ct_aux
    { A with
      at_inputs := ra.1, at_aux := ra.2
      bt_inputs := rb.1, bt_aux := rb.2
      ct_inputs := rc.1, ct_aux := rc.2
      num_constraints := A.num_constraints + 1 }
  | CSOp.push_namespace => A
  | CSOp.pop_namespace => A

/-- A circuit, seen through the only interface `MPCParameters::new`
offers it: the sequence of constraint-system calls its `synthesize`
makes. -/
def applyOps {F : Type} (ops : List (CSOp F)) (A : KeypairAssembly F) :
    KeypairAssembly F :=
  ops.foldl applyOp A

/-- Source `MPCParameters::new`, steps 1-3: empty collector, the
canonical "one" input, circuit synthesis, then one sentinel constraint
`x_i * 0 = 0` per input to make the IC query fully dense. -/
def buildAssembly {F : Type} [One F] (ops : List (CSOp F)) :
    KeypairAssembly F :=
  let A := applyOps ops (applyOp (emptyAssembly F) (CSOp.alloc_input))
  (List.range A.num_inputs).foldl
    (fun A i => applyOp A (CSOp.enforce [(Var.input i, 1)] [] []))
    A

/-- Source domain-size loop: double `m` until it reaches
`num_constraints`, failing when the exponent would exceed 21.  The
`fuel` argument makes the recursion structural; the loop body returns
before consuming fuel whenever `exp + 1 > 21`, so any fuel above 22
is never exhausted (see `domainLoop_fuel`). -/
def domainLoop (n : ℕ) : ℕ → ℕ → ℕ → Option (ℕ × ℕ)
  | fuel, m, exp =>
    if m < n then
      if exp + 1 > 21 then none
      else
        match fuel with
        | 0 => none
        | fuel' + 1 => domainLoop n fuel' (2 * m) (exp + 1)
    else some (m, exp)

/-- Source `MPCParameters::new`, step 4: the evaluation-domain size
`m = 2^exp` for `num_constraints = n`, or `none` for the
`PolynomialDegreeTooLarge` failure. -/
def domainSize (n : ℕ) : Option (ℕ × ℕ) :=
  domainLoop n 22 1 0

/-- Contents of the Phase-1 transcript file `phase1radix2m{exp}` in the
order the source reads them. -/
structure Phase1 (p : ℕ) where
  alpha : ZMod p
  beta_g1 : ZMod p
  beta_g2 : ZMod p
  coeffs_g1 : List (ZMod p)
  coeffs_g2 : List (ZMod p)
  alpha_coeffs_g1 : List (ZMod p)
  beta_coeffs_g1 : List (ZMod p)
  h : List (ZMod p)
deriving DecidableEq

/-- Source `MPCParameters::new`, step 5: strict-order read of the
Phase-1 transcript: `alpha, beta_g1, beta_g2`, four length-`m` arrays,
then `m - 1` points of H.  Every point is decoded without on-curve
checks but rejected if it is the identity; any failure is an
`io::Error` (which `?` converts to `SynthesisError::IoError`).
Trailing bytes are ignored, as in the source. -/
def readPhase1 (p : ℕ) (m : ℕ) (s : List ℕ) : Option (Phase1 p) :=
  match readPtNZ p s with
  | none => none
  | some (alpha, s) =>
    match readPtNZ p s with
    | none => none
    | some (beta_g1, s) =>
      match readPtNZ p s with
      | none => none
      | some (beta_g2, s) =>
        match readVecNZ p m s with
        | none => none
        | some (coeffs_g1, s) =>
          match readVecNZ p m s with
          | none => none
          | some (coeffs_g2, s) =>
            match readVecNZ p m s with
            | none => none
            | some (alpha_coeffs_g1, s) =>
              match readVecNZ p m s with
              | none => none
              | some (beta_coeffs_g1, s) =>
                match readVecNZ p (m - 1) s with
                | none => none
                | some (h, _) =>
                  some ⟨alpha, beta_g1, beta_g2, coeffs_g1, coeffs_g2,
                    alpha_coeffs_g1, beta_coeffs_g1, h⟩

/-- Sum of one sparse QAP column against one Lagrange-coefficient
array: `sum of coeff * coeffs[lag]` over the `(coeff, lag)` terms.
Every `lag` is a constraint id and hence in range for the arrays
`new` applies this to; `getD` supplies a default that is never used. -/
def dotQ {p : ℕ} (coeffs : List (ZMod p)) (terms : List (ZMod p × ℕ)) :
    ZMod p :=
  terms.foldl (fun acc t => acc + t.1 * coeffs.getD t.2 0) 0

/-- Per-variable extension slot of the source `eval` (IC for inputs, L
for aux): beta-coefficients against the A column, alpha-coefficients
against the B column, plain coefficients against the C column. -/
def extQuery {p : ℕ} (ph : Phase1 p)
    (atc btc ctc : List (List (ZMod p × ℕ))) : List (ZMod p) :=
  (List.range atc.length).map fun v =>
    dotQ ph.beta_coeffs_g1 (atc.getD v []) +
      dotQ ph.alpha_coeffs_g1 (btc.getD v []) +
      dotQ ph.coeffs_g1 (ctc.getD v [])

/-- Outcome of `MPCParameters::new`: a success, a returned
`SynthesisError`, or a panic (the source panics when the Phase-1 file
cannot be opened). -/
inductive NewResult (p : ℕ) where
  | ok (P : MPCParameters p)
  | err (e : SynthesisError)
  | panicked
deriving DecidableEq

/-- Parameters assembled by `MPCParameters::new` (step 10): generator
deltas and gamma, the queries evaluated from the QAP columns, and the
A/B queries with identity elements filtered out before the affine
conversion. -/
def newParams {p : ℕ} (ph : Phase1 p) (A : KeypairAssembly (ZMod p)) :
    Params p :=
  { vk :=
      { alpha_g1 := ph.alpha
        beta_g1 := ph.beta_g1
        beta_g2 := ph.beta_g2
        gamma_g2 := 1
        delta_g1 := 1
        delta_g2 := 1
        ic := extQuery ph A.at_inputs A.bt_inputs A.ct_inputs }
    h := ph.h
    l := extQuery ph A.at_aux A.bt_aux A.ct_aux
    a := (((A.at_inputs ++ A.at_aux).map (dotQ ph.coeffs_g1)).filter
      (fun x => decide (x ≠ 0)))
    b_g1 := (((A.bt_inputs ++ A.bt_aux).map (dotQ ph.coeffs_g1)).filter
      (fun x => decide (x ≠ 0)))
    b_g2 := (((A.bt_inputs ++ A.bt_aux).map (dotQ ph.coeffs_g2)).filter
      (fun x => decide (x ≠ 0))) }

/-- Source `MPCParameters::new`, steps 6-12, after the transcript has
been read: QAP evaluation, the unconstrained-variable check on L,
parameter assembly, and the `cs_hash` of the serialized parameters. -/
def newAssemble {p : ℕ} (C : Ctx p) (A : KeypairAssembly (ZMod p))
    (ph : Phase1 p) : NewResult p :=
  if (extQuery ph A.at_aux A.bt_aux A.ct_aux).any (fun x => decide (x = 0)) then
    NewResult.err SynthesisError.UnconstrainedVariable
  else
    NewResult.ok
      { params := newParams ph A
        cs_hash := C.hash (newParams ph A).write
        contributions := [] }

/-- Source `MPCParameters::new`.  The Phase-1 file is `none` when
missing from the working directory, in which case the source panics
rather than returning; a file whose contents fail to parse produces
the returned `IoError`. -/
def new {p : ℕ} (C : Ctx p) (ops : List (CSOp (ZMod p)))
    (file : Option (List ℕ)) : NewResult p :=
  let A := buildAssembly ops
  match domainSize A.num_constraints with
  | none => NewResult.err SynthesisError.PolynomialDegreeTooLarge
  | some me =>
    match file with
    | none => NewResult.panicked
    | some bytes =>
      match readPhase1 p me.1 bytes with
      | none => NewResult.err SynthesisError.IoError
      | some ph => newAssemble C A ph

/-- Source `keypair`: given the sampled `delta` and `s`, the public key
of a contribution on top of `current`.  The binding hash is Blake2b-64
of `cs_hash`, every previous serialized public key, then the
uncompressed `s` and `s_delta`. -/
def keypair {p : ℕ} (C : Ctx p) (delta s : ZMod p)
    (current : MPCParameters p) : PublicKey p :=
  let s_delta := delta * s
  let h := C.hash ([current.cs_hash] ++
    (current.contributions.map PublicKey.write).flatten ++
    encPt s ++ encPt s_delta)
  { delta_after := delta * current.params.vk.delta_g1
    s := s
    s_delta := s_delta
    r_delta := delta * C.hashG2 h
    transcript := h }

/-- State transformation of `MPCParameters::contribute`: scale L and H
by `delta^-1` (`batch_exp`, denotationally a map), scale the two deltas
by `delta`, and append the public key of the sampled keypair. -/
def contribState {p : ℕ} (C : Ctx p) (delta s : ZMod p)
    (P : MPCParameters p) : MPCParameters p :=
  let delta_inv := fieldInv delta
  { params :=
      { vk :=
          { P.params.vk with
            delta_g1 := delta * P.params.vk.delta_g1
            delta_g2 := delta * P.params.vk.delta_g2 }
        h := P.params.h.map (fun x => delta_inv * x)
        l := P.params.l.map (fun x => delta_inv * x)
        a := P.params.a
        b_g1 := P.params.b_g1
        b_g2 := P.params.b_g2 }
    cs_hash := P.cs_hash
    contributions := P.contributions ++ [keypair C delta s P] }

/-- Source `MPCParameters::contribute`: produce the transformed state
and the Blake2b-64 receipt of the serialized new public key.  A zero
`delta` makes `invert().expect("nonzero")` panic, modelled as `none`. -/
def contribute {p : ℕ} (C : Ctx p) (delta s : ZMod p)
    (P : MPCParameters p) : Option (MPCParameters p × ℕ) :=
  if delta = 0 then none
  else some (contribState C delta s P, C.hash (keypair C delta s P).write)

/-- A sequence of `contribute` calls: threads the state through and
collects the returned receipts in order; `none` as soon as one call
panics. -/
def runChain {p : ℕ} (C : Ctx p) :
    List (ZMod p × ZMod p) → MPCParameters p →
    Option (MPCParameters p × List ℕ)
  | [], P => some (P, [])
  | (d, s) :: rest, P =>
    match contribute C d s P with
    | none => none
    | some (P', r) =>
      match runChain C rest P' with
      | none => none
      | some (Pn, rs) => some (Pn, r :: rs)

/-- Source `verify_contribution`: the incremental check between two
adjacent states.  The sequence of early `return Err(())` exits denotes
the conjunction of the checks (the failure value carries no
information); the final value is the Blake2b-64 receipt of the new
serialized public key. -/
def verify_contribution {p : ℕ} (C : Ctx p) (rhoH rhoL : ℕ → ZMod p)
    (before after : MPCParameters p) : Option ℕ :=
  if after.contributions.length = before.contributions.length + 1 ∧
      after.contributions.take before.contributions.length =
        before.contributions ∧
      before.params.h.length = after.params.h.length ∧
      before.params.l.length = after.params.l.length ∧
      before.params.a = after.params.a ∧
      before.params.b_g1 = after.params.b_g1 ∧
      before.params.b_g2 = after.params.b_g2 ∧
      before.params.vk.alpha_g1 = after.params.vk.alpha_g1 ∧
      before.params.vk.beta_g1 = after.params.vk.beta_g1 ∧
      before.params.vk.beta_g2 = after.params.vk.beta_g2 ∧
      before.params.vk.gamma_g2 = after.params.vk.gamma_g2 ∧
      before.params.vk.ic = after.params.vk.ic ∧
      before.cs_hash = after.cs_hash then
    match after.contributions.getLast? with
    | none => none
    | some pubkey =>
      let h := C.hash ([before.cs_hash] ++
        (before.contributions.map PublicKey.write).flatten ++
        encPt pubkey.s ++ encPt pubkey.s_delta)
      if pubkey.transcript = h then
        let r := C.hashG2 h
        if same_ratio (r, pubkey.r_delta) (pubkey.s, pubkey.s_delta) ∧
            same_ratio (before.params.vk.delta_g1, pubkey.delta_after)
              (r, pubkey.r_delta) ∧
            pubkey.delta_after = after.params.vk.delta_g1 ∧
            same_ratio (1, pubkey.delta_after)
              (1, after.params.vk.delta_g2) ∧
            same_ratio (merge_pairs rhoH before.params.h after.params.h)
              (after.params.vk.delta_g2, before.params.vk.delta_g2) ∧
            same_ratio (merge_pairs rhoL before.params.l after.params.l)
              (after.params.vk.delta_g2, before.params.vk.delta_g2) then
          some (C.hash pubkey.write)
        else none
      else none
  else none

/-- Contribution walk of `MPCParameters::verify`: `acc` is the byte
stream fed so far to the running transcript hasher (the `sink` the
source clones before each entry), `current_delta` the delta reached.
Produces the final delta and the list of per-contribution receipts. -/
def verifyWalk {p : ℕ} (C : Ctx p) (acc : List ℕ) (current_delta : ZMod p) :
    List (PublicKey p) → Option (ZMod p × List ℕ)
  | [] => some (current_delta, [])
  | pubkey :: rest =>
    let h := C.hash (acc ++ encPt pubkey.s ++ encPt pubkey.s_delta)
    if pubkey.transcript = h then
      let r := C.hashG2 h
      if same_ratio (r, pubkey.r_delta) (pubkey.s, pubkey.s_delta) ∧
          same_ratio (current_delta, pubkey.delta_after)
            (r, pubkey.r_delta) then
        match verifyWalk C (acc ++ pubkey.write) pubkey.delta_after rest with
        | none => none
        | some (d, rs) => some (d, C.hash pubkey.write :: rs)
      else none
    else none

/-- Source `MPCParameters::verify`: rebuild the initial parameters from
the circuit (reading the same Phase-1 file), compare every frozen
field, replay the contribution chain, then run the final delta and H/L
ratio checks.  When `new` fails the source propagates `Err(())` (or
panics on a missing file); both are collapsed to `none` here since no
claim distinguishes them on this path. -/
def verify {p : ℕ} (C : Ctx p) (ops : List (CSOp (ZMod p)))
    (file : Option (List ℕ)) (rhoH rhoL : ℕ → ZMod p)
    (self : MPCParameters p) : Option (List ℕ) :=
  match new C ops file with
  | NewResult.ok ip =>
    if ip.params.h.length = self.params.h.length ∧
        ip.params.l.length = self.params.l.length ∧
        ip.params.a = self.params.a ∧
        ip.params.b_g1 = self.params.b_g1 ∧
        ip.params.b_g2 = self.params.b_g2 ∧
        ip.params.vk.alpha_g1 = self.params.vk.alpha_g1 ∧
        ip.params.vk.beta_g1 = self.params.vk.beta_g1 ∧
        ip.params.vk.beta_g2 = self.params.vk.beta_g2 ∧
        ip.params.vk.gamma_g2 = self.params.vk.gamma_g2 ∧
        ip.params.vk.ic = self.params.vk.ic ∧
        ip.cs_hash = self.cs_hash then
      match verifyWalk C [ip.cs_hash] 1 self.contributions with
      | none => none
      | some (current_delta, result) =>
        if current_delta = self.params.vk.delta_g1 ∧
            same_ratio (1, current_delta) (1, self.params.vk.delta_g2) ∧
            same_ratio (merge_pairs rhoH ip.params.h self.params.h)
              (self.params.vk.delta_g2, 1) ∧
            same_ratio (merge_pairs rhoL ip.params.l self.params.l)
              (self.params.vk.delta_g2, 1) then
          some result
        else none
    else none
  | _ => none

/-- Source `contains_contribution`. -/
def contains_contribution (contributions : List ℕ) (my_contribution : ℕ) :
    Bool :=
  contributions.any (fun c => decide (c = my_contribution))

/-- Placeholder public key (used only as the default of `getD`-style
extractions in concrete witness statements). -/
def dPk (p : ℕ) : PublicKey p := ⟨0, 0, 0, 0, 0⟩

/-- Placeholder parameter set (same purpose as `dPk`). -/
def dMPC (p : ℕ) : MPCParameters p :=
  ⟨⟨⟨0, 0, 0, 0, 0, 0, []⟩, [], [], [], [], []⟩, 0, []⟩

/-- Projection of a successful `new` outcome (default otherwise). -/
def NewResult.getOk {p : ℕ} : NewResult p → MPCParameters p
  | NewResult.ok P => P
  | _ => dMPC p

instance : Fact (Nat.Prime 5) := ⟨by norm_num⟩

/-- Concrete instantiation used by the witness statements: the group
order is 5 (a prime, so the discrete-log model is a faithful generic
group), the digest function sums the stream symbols, and the hash-to-G2
sampler is the constant point 2. -/
def ctx5 : Ctx 5 := ⟨fun l => l.sum, fun _ => 2⟩

/-- Concrete Phase-1 file contents for domain size m = 1: the points
alpha, beta_g1, beta_g2, then one point for each of the four
Lagrange-coefficient arrays and no H points. -/
def file0 : List ℕ := [2, 3, 4, 1, 2, 3, 4]

/-- The initial parameters of the concrete instance: the trivial
circuit (no constraint-system calls) over `ctx5` and `file0`. -/
def P0W : MPCParameters 5 := (new ctx5 [] (some file0)).getOk

/-- One-contribution chain on the concrete instance, with sampled
delta 2 and s 3. -/
def chainW : Option (MPCParameters 5 × List ℕ) :=
  runChain ctx5 [(2, 3)] P0W

/-- Final state of the concrete chain. -/
def PnW : MPCParameters 5 := (chainW.getD (dMPC 5, [])).1

/-- Receipts of the concrete chain. -/
def rcptsW : List ℕ := (chainW.getD (dMPC 5, [])).2

/-- Documented `KeypairAssembly` invariant: each of the three
per-matrix column arrays has exactly one entry per allocated input,
and likewise per allocated auxiliary. -/
def assemblyInv {F : Type} (A : KeypairAssembly F) : Prop :=
  A.at_inputs.length = A.num_inputs ∧
  A.bt_inputs.length = A.num_inputs ∧
  A.ct_inputs.length = A.num_inputs ∧
  A.at_aux.length = A.num_aux ∧
  A.bt_aux.length = A.num_aux ∧
  A.ct_aux.length = A.num_aux

/-- Phase-1 data matching `file0`, for concrete statements. -/
def phW : Phase1 5 := ⟨2, 3, 4, [1], [2], [3], [4], []⟩

/-- Counterexample parameters for the serialization round-trip claim:
a (syntactically well-formed) `MPCParameters` value whose single
contribution carries the identity as `delta_after`. -/
def P2cx : MPCParameters 5 :=
  ⟨⟨⟨1, 1, 1, 1, 1, 1, [1]⟩, [], [], [], [], []⟩, 0, [⟨0, 1, 1, 1, 0⟩]⟩

end Phase2

namespace Phase2

/-! ## Properties of the constraint collector (claim C9) -/

theorem modifyAt_length {α : Type} (f : α → α) :
    ∀ (n : ℕ) (l : List α), (modifyAt f n l).length = l.length := by
  intro n l
  induction l generalizing n with
  | nil => cases n <;> rfl
  | cons x xs ih => cases n with
    | zero => rfl
    | succ n => simpa [modifyAt] using ih n

theorem evalLC_lengths {F : Type} (l : List (Var × F)) (cid : ℕ) :
    ∀ inputs aux : List (List (F × ℕ)),
      (evalLC l cid inputs aux).1.length = inputs.length ∧
      (evalLC l cid inputs aux).2.length = aux.length := by
  induction l with
  | nil => intro inputs aux; exact ⟨rfl, rfl⟩
  | cons t ts ih =>
    intro inputs aux
    have step :
        evalLC (t :: ts) cid inputs aux =
          match t.1 with
          | Var.input id =>
            evalLC ts cid (modifyAt (· ++ [(t.2, cid)]) id inputs) aux
          | Var.aux id =>
            evalLC ts cid inputs (modifyAt (· ++ [(t.2, cid)]) id aux) := by
      cases t with
      | mk v c => cases v <;> rfl
    rw [step]
    cases t with
    | mk v c =>
      cases v with
      | input id =>
        simpa [modifyAt_length] using
          ih (modifyAt (· ++ [(c, cid)]) id inputs) aux
      | aux id =>
        simpa [modifyAt_length] using
          ih inputs (modifyAt (· ++ [(c, cid)]) id aux)

theorem applyOp_inv {F : Type} (A : KeypairAssembly F) (op : CSOp F)
    (h : assemblyInv A) : assemblyInv (applyOp A op) := by
  obtain ⟨h1, h2, h3, h4, h5, h6⟩ := h
  cases op with
  | alloc => simp [applyOp, assemblyInv, h1, h2, h3, h4, h5, h6]
  | alloc_input => simp [applyOp, assemblyInv, h1, h2, h3, h4, h5, h6]
  | enforce a b c =>
    refine ⟨?_, ?_, ?_, ?_, ?_, ?_⟩ <;>
      simp [applyOp, (evalLC_lengths _ _ _ _).1, (evalLC_lengths _ _ _ _).2,
        h1, h2, h3, h4, h5, h6]
  | push_namespace => exact ⟨h1, h2, h3, h4, h5, h6⟩
  | pop_namespace => exact ⟨h1, h2, h3, h4, h5, h6⟩

theorem applyOps_inv {F : Type} (ops : List (CSOp F))
    (A : KeypairAssembly F) (h : assemblyInv A) :
    assemblyInv (applyOps ops A) := by
  induction ops generalizing A with
  | nil => exact h
  | cons op ops ih => exact ih _ (applyOp_inv A op h)

theorem foldl_enforce_inv {F : Type} [One F] :
    ∀ (idxs : List ℕ) (A : KeypairAssembly F), assemblyInv A →
      assemblyInv (idxs.foldl
        (fun A i => applyOp A (CSOp.enforce [(Var.input i, 1)] [] [])) A)
  | [], _, h => h
  | _ :: idxs, _, h => foldl_enforce_inv idxs _ (applyOp_inv _ _ h)

theorem buildAssembly_inv {F : Type} [One F] (ops : List (CSOp F)) :
    assemblyInv (buildAssembly ops) := by
  unfold buildAssembly
  exact foldl_enforce_inv _ _
    (applyOps_inv ops _ (applyOp_inv _ _ ⟨rfl, rfl, rfl, rfl, rfl, rfl⟩))

/-- C9: starting from the empty assembly, every sequence of
constraint-system calls preserves the length invariant
`at/bt/ct_inputs.len == num_inputs` and `at/bt/ct_aux.len == num_aux`;
moreover `alloc` (resp. `alloc_input`) appends exactly one empty
coefficient vector to each of its three matrix-column arrays, and
`enforce` increments `num_constraints` by exactly one. -/
theorem c9_assembly_invariant {F : Type} :
    (∀ ops : List (CSOp F), assemblyInv (applyOps ops (emptyAssembly F))) ∧
    (∀ A : KeypairAssembly F,
      (applyOp A CSOp.alloc).num_aux = A.num_aux + 1 ∧
      (applyOp A CSOp.alloc).at_aux = A.at_aux ++ [[]] ∧
      (applyOp A CSOp.alloc).bt_aux = A.bt_aux ++ [[]] ∧
      (applyOp A CSOp.alloc).ct_aux = A.ct_aux ++ [[]]) ∧
    (∀ A : KeypairAssembly F,
      (applyOp A CSOp.alloc_input).num_inputs = A.num_inputs + 1 ∧
      (applyOp A CSOp.alloc_input).at_inputs = A.at_inputs ++ [[]] ∧
      (applyOp A CSOp.alloc_input).bt_inputs = A.bt_inputs ++ [[]] ∧
      (applyOp A CSOp.alloc_input).ct_inputs = A.ct_inputs ++ [[]]) ∧
    (∀ (A : KeypairAssembly F) (a b c : List (Var × F)),
      (applyOp A (CSOp.enforce a b c)).num_constraints =
        A.num_constraints + 1) := by
  refine ⟨?_, ?_, ?_, ?_⟩
  · intro ops
    exact applyOps_inv ops _ ⟨rfl, rfl, rfl, rfl, rfl, rfl⟩
  · intro A; exact ⟨rfl, rfl, rfl, rfl⟩
  · intro A; exact ⟨rfl, rfl, rfl, rfl⟩
  · intro A a b c; rfl

/-! ## The evaluation-domain loop (claim C5) -/

theorem domainLoop_stop (n fuel m exp : ℕ) (h : ¬ m < n) :
    domainLoop n fuel m exp = some (m, exp) := by
  rw [domainLoop.eq_def]
  simp [h]

theorem domainLoop_fail (n fuel m exp : ℕ) (h1 : m < n) (h2 : 21 < exp + 1) :
    domainLoop n fuel m exp = none := by
  rw [domainLoop.eq_def]
  simp [h1, h2]

theorem domainLoop_step (n fuel m exp : ℕ) (h1 : m < n) (h2 : exp + 1 ≤ 21) :
    domainLoop n (fuel + 1) m exp = domainLoop n fuel (2 * m) (exp + 1) := by
  rw [domainLoop.eq_def]
  simp [h1, Nat.not_lt.2 h2]

theorem domainLoop_big (n : ℕ) (hn : 2 ^ 21 < n) :
    ∀ fuel exp, exp ≤ 21 → 21 - exp < fuel →
      domainLoop n fuel (2 ^ exp) exp = none := by
  intro fuel
  induction fuel with
  | zero => intro exp _ h2; exact absurd h2 (Nat.not_lt_zero _)
  | succ fuel ih =>
    intro exp h1 h2
    have hm : 2 ^ exp < n :=
      lt_of_le_of_lt (Nat.pow_le_pow_right (by norm_num) h1) hn
    by_cases hx : 21 < exp + 1
    · exact domainLoop_fail n (fuel + 1) _ exp hm hx
    · push_neg at hx
      rw [domainLoop_step n fuel _ exp hm hx,
        show 2 * 2 ^ exp = 2 ^ (exp + 1) by ring]
      exact ih (exp + 1) hx (by omega)

theorem domainLoop_small (n : ℕ) (hn : n ≤ 2 ^ 21) :
    ∀ fuel exp, 21 - exp < fuel → (∀ j, n ≤ 2 ^ j → exp ≤ j) →
      ∃ k, domainLoop n fuel (2 ^ exp) exp = some (2 ^ k, k) ∧
        n ≤ 2 ^ k ∧ ∀ j, n ≤ 2 ^ j → k ≤ j := by
  intro fuel
  induction fuel with
  | zero => intro exp h2 _; exact absurd h2 (Nat.not_lt_zero _)
  | succ fuel ih =>
    intro exp h2 hmin
    by_cases hm : 2 ^ exp < n
    · have hx : exp + 1 ≤ 21 := by
        by_contra hx
        push_neg at hx
        have h21 : 2 ^ 21 ≤ 2 ^ exp :=
          Nat.pow_le_pow_right (by norm_num) (by omega)
        omega
      rw [domainLoop_step n fuel _ exp hm hx,
        show 2 * 2 ^ exp = 2 ^ (exp + 1) by ring]
      refine ih (exp + 1) (by omega) ?_
      intro j hj
      have hje := hmin j hj
      rcases Nat.lt_or_ge exp j with h | h
      · omega
      · have hej : exp = j := le_antisymm hje h
        subst hej
        omega
    · push_neg at hm
      exact ⟨exp, domainLoop_stop n (fuel + 1) _ exp (Nat.not_lt.2 hm),
        hm, hmin⟩

theorem domainSize_none_iff (n : ℕ) : domainSize n = none ↔ 2 ^ 21 < n := by
  have hds : domainSize n = domainLoop n 22 (2 ^ 0) 0 := by
    rw [domainSize]; norm_num
  constructor
  · intro h
    by_contra hc
    push_neg at hc
    obtain ⟨k, hk, _, _⟩ :=
      domainLoop_small n hc 22 0 (by omega) (fun j _ => Nat.zero_le j)
    rw [hds, hk] at h
    exact Option.noConfusion h
  · intro h
    rw [hds]
    exact domainLoop_big n h 22 0 (by omega) (by omega)

theorem domainSize_some_char (n m k : ℕ) (hmk : domainSize n = some (m, k)) :
    m = 2 ^ k ∧ n ≤ m ∧ ∀ j, n ≤ 2 ^ j → m ≤ 2 ^ j := by
  have hds : domainSize n = domainLoop n 22 (2 ^ 0) 0 := by
    rw [domainSize]; norm_num
  rcases le_or_lt n (2 ^ 21) with hn | hn
  · obtain ⟨k', h1, h2, h3⟩ :=
      domainLoop_small n hn 22 0 (by omega) (fun j _ => Nat.zero_le j)
    rw [hds, h1] at hmk
    obtain ⟨hm, hk⟩ : (2 : ℕ) ^ k' = m ∧ k' = k := by
      have := Option.some.inj hmk
      exact ⟨congrArg Prod.fst this, congrArg Prod.snd this⟩
    subst hm hk
    refine ⟨rfl, h2, ?_⟩
    intro j hj
    exact Nat.pow_le_pow_right (by norm_num) (h3 j hj)
  · exfalso
    rw [hds, domainLoop_big n hn 22 0 (by omega) (by omega)] at hmk
    exact Option.noConfusion hmk

/-- C5: `MPCParameters::new` fails with `PolynomialDegreeTooLarge`
exactly when the collected constraint count exceeds `2^21`; on success
the domain size is `2^k` for the least `k` with
`2^k >= num_constraints`. -/
theorem c5_domain_size (n : ℕ) :
    (domainSize n = none ↔ 2 ^ 21 < n) ∧
    (∀ m k, domainSize n = some (m, k) →
      m = 2 ^ k ∧ n ≤ m ∧ ∀ j, n ≤ 2 ^ j → m ≤ 2 ^ j) :=
  ⟨domainSize_none_iff n, fun m k h => domainSize_some_char n m k h⟩

/-- Witness for C5 at a concrete input: a circuit with 5 constraints
gets the domain `2^3 = 8`. -/
theorem c5_domain_size_witness :
    domainSize 5 = some (8, 3) ∧ (8 : ℕ) = 2 ^ 3 ∧ 5 ≤ 8 := by
  refine ⟨by decide, ?_, ?_⟩
  · exact ((c5_domain_size 5).2 8 3 (by decide)).1
  · exact ((c5_domain_size 5).2 8 3 (by decide)).2.1

/-! ## Inversion of `new` and `contribute` -/

theorem contribute_inv {p : ℕ} {C : Ctx p} {d s : ZMod p}
    {P P' : MPCParameters p} {r : ℕ}
    (h : contribute C d s P = some (P', r)) :
    d ≠ 0 ∧ P' = contribState C d s P ∧
      r = C.hash (keypair C d s P).write := by
  by_cases hd : d = 0
  · rw [contribute, if_pos hd] at h
    exact Option.noConfusion h
  · rw [contribute, if_neg hd] at h
    have h' := Option.some.inj h
    exact ⟨hd, (congrArg Prod.fst h').symm, (congrArg Prod.snd h').symm⟩

theorem newAssemble_ok_fields {p : ℕ} {C : Ctx p}
    {A : KeypairAssembly (ZMod p)} {ph : Phase1 p} {P : MPCParameters p}
    (h : newAssemble C A ph = NewResult.ok P) :
    P.params = newParams ph A ∧
    P.cs_hash = C.hash (newParams ph A).write ∧
    P.contributions = [] := by
  rw [newAssemble] at h
  split at h
  · exact NewResult.noConfusion h
  · have h' := (NewResult.ok.inj h).symm
    subst h'
    exact ⟨rfl, rfl, rfl⟩

theorem new_ok_inv {p : ℕ} {C : Ctx p} {ops : List (CSOp (ZMod p))}
    {file : Option (List ℕ)} {P : MPCParameters p}
    (h : new C ops file = NewResult.ok P) :
    ∃ m k bytes ph,
      domainSize (buildAssembly ops).num_constraints = some (m, k) ∧
      file = some bytes ∧ readPhase1 p m bytes = some ph ∧
      newAssemble C (buildAssembly ops) ph = NewResult.ok P := by
  rcases hd : domainSize (buildAssembly ops).num_constraints with _ | ⟨m, k⟩
  · simp only [new, hd] at h
    exact NewResult.noConfusion h
  · cases file with
    | none =>
      simp only [new, hd] at h
      exact NewResult.noConfusion h
    | some bytes =>
      rcases hr : readPhase1 p m bytes with _ | ph
      · simp only [new, hd, hr] at h
        exact NewResult.noConfusion h
      · simp only [new, hd, hr] at h
        exact ⟨m, k, bytes, ph, rfl, rfl, hr, h⟩

theorem readVecNZ_some_length {p : ℕ} :
    ∀ (n : ℕ) (s : List ℕ) (v : List (ZMod p)) (rest : List ℕ),
      readVecNZ p n s = some (v, rest) → v.length = n := by
  intro n
  induction n with
  | zero =>
    intro s v rest h
    rw [readVecNZ] at h
    injection h with h'
    injection h' with hv hr
    rw [← hv]
    rfl
  | succ n ih =>
    intro s v rest h
    rw [readVecNZ] at h
    split at h
    · exact Option.noConfusion h
    · split at h
      · exact Option.noConfusion h
      · next v' rest' heq =>
        injection h with h'
        injection h' with hv hr
        rw [← hv]
        simp [ih _ _ _ heq]

theorem readPhase1_h_length {p m : ℕ} {s : List ℕ} {ph : Phase1 p}
    (h : readPhase1 p m s = some ph) : ph.h.length = m - 1 := by
  rw [readPhase1] at h
  split at h
  · exact Option.noConfusion h
  split at h
  · exact Option.noConfusion h
  split at h
  · exact Option.noConfusion h
  split at h
  · exact Option.noConfusion h
  split at h
  · exact Option.noConfusion h
  split at h
  · exact Option.noConfusion h
  split at h
  · exact Option.noConfusion h
  split at h
  · exact Option.noConfusion h
  next hv srest heq =>
    injection h with h'
    rw [← h']
    exact readVecNZ_some_length (m - 1) _ hv srest heq

theorem extQuery_length {p : ℕ} (ph : Phase1 p)
    (atc btc ctc : List (List (ZMod p × ℕ))) :
    (extQuery ph atc btc ctc).length = atc.length := by
  simp [extQuery]

/-! ## Claims about `MPCParameters::new` (C4, C6, C7) -/

/-- C4: a successful `MPCParameters::new` returns generator deltas and
gamma, an empty contribution list, an H query of length `2^k - 1` for
the least power of two `2^k` at least `num_constraints`, an L query of
length `num_aux`, and A/B_G1/B_G2 queries equal to the evaluated
accumulators with identity elements filtered out. -/
theorem c4_initial_params {p : ℕ} (C : Ctx p) (ops : List (CSOp (ZMod p)))
    (file : Option (List ℕ)) (P : MPCParameters p)
    (h : new C ops file = NewResult.ok P) :
    P.params.vk.delta_g1 = 1 ∧ P.params.vk.delta_g2 = 1 ∧
    P.params.vk.gamma_g2 = 1 ∧ P.contributions = [] ∧
    (∃ k, (buildAssembly ops).num_constraints ≤ 2 ^ k ∧
      (∀ j, (buildAssembly ops).num_constraints ≤ 2 ^ j → 2 ^ k ≤ 2 ^ j) ∧
      P.params.h.length = 2 ^ k - 1) ∧
    P.params.l.length = (buildAssembly ops).num_aux ∧
    (∃ m k bytes ph,
      domainSize (buildAssembly ops).num_constraints = some (m, k) ∧
      file = some bytes ∧ readPhase1 p m bytes = some ph ∧
      P.params.a =
        (((buildAssembly ops).at_inputs ++ (buildAssembly ops).at_aux).map
          (dotQ ph.coeffs_g1)).filter (fun x => decide (x ≠ 0)) ∧
      P.params.b_g1 =
        (((buildAssembly ops).bt_inputs ++ (buildAssembly ops).bt_aux).map
          (dotQ ph.coeffs_g1)).filter (fun x => decide (x ≠ 0)) ∧
      P.params.b_g2 =
        (((buildAssembly ops).bt_inputs ++ (buildAssembly ops).bt_aux).map
          (dotQ ph.coeffs_g2)).filter (fun x => decide (x ≠ 0))) := by
  obtain ⟨m, k, bytes, ph, hdom, hfile, hread, hass⟩ := new_ok_inv h
  obtain ⟨hps, hcs, hcon⟩ := newAssemble_ok_fields hass
  obtain ⟨hm2k, hnle, hmin⟩ := domainSize_some_char _ _ _ hdom
  subst hfile
  refine ⟨by rw [hps]; rfl, by rw [hps]; rfl, by rw [hps]; rfl, hcon,
    ⟨k, ?_, ?_, ?_⟩, ?_, m, k, bytes, ph, hdom, rfl, hread,
    by rw [hps]; rfl, by rw [hps]; rfl, by rw [hps]; rfl⟩
  · rw [← hm2k]; exact hnle
  · intro j hj; rw [← hm2k]; exact hmin j hj
  · have : P.params.h = ph.h := by rw [hps]; rfl
    rw [this, readPhase1_h_length hread, hm2k]
  · have : P.params.l = extQuery ph (buildAssembly ops).at_aux
        (buildAssembly ops).bt_aux (buildAssembly ops).ct_aux := by
      rw [hps]; rfl
    rw [this, extQuery_length]
    exact (buildAssembly_inv ops).2.2.2.1

/-- Witness for C4: on the concrete trivial circuit, the initial
parameters carry generator deltas and no contributions. -/
theorem c4_initial_params_witness :
    new ctx5 [] (some file0) = NewResult.ok P0W ∧
    P0W.params.vk.delta_g1 = 1 ∧ P0W.contributions = [] := by
  refine ⟨by decide, ?_, ?_⟩
  · exact (c4_initial_params ctx5 [] (some file0) P0W (by decide)).1
  · exact (c4_initial_params ctx5 [] (some file0) P0W (by decide)).2.2.2.1

/-- C6: once the domain has been computed and the Phase-1 transcript
read, `new` returns `UnconstrainedVariable` exactly when some entry of
the evaluated L query is the identity, and in that case it returns no
parameters. -/
theorem c6_unconstrained {p : ℕ} (C : Ctx p) (ops : List (CSOp (ZMod p)))
    (bytes : List ℕ) (m k : ℕ) (ph : Phase1 p)
    (hdom : domainSize (buildAssembly ops).num_constraints = some (m, k))
    (hread : readPhase1 p m bytes = some ph) :
    (new C ops (some bytes) = NewResult.err SynthesisError.UnconstrainedVariable ↔
      ∃ x ∈ extQuery ph (buildAssembly ops).at_aux
        (buildAssembly ops).bt_aux (buildAssembly ops).ct_aux, x = 0) ∧
    ∀ P : MPCParameters p,
      new C ops (some bytes) = NewResult.err SynthesisError.UnconstrainedVariable →
        new C ops (some bytes) ≠ NewResult.ok P := by
  have hnew : new C ops (some bytes) =
      newAssemble C (buildAssembly ops) ph := by
    simp only [new, hdom, hread]
  constructor
  · rw [hnew, newAssemble]
    constructor
    · intro h
      split at h
      · next hany =>
        simpa [List.any_eq_true] using hany
      · exact NewResult.noConfusion h
    · intro hex
      rw [if_pos (by simpa [List.any_eq_true] using hex)]
  · intro P herr hok
    rw [herr] at hok
    exact NewResult.noConfusion hok

/-- Witness for C6: a circuit allocating one auxiliary variable that
appears in no constraint is rejected with `UnconstrainedVariable`. -/
theorem c6_unconstrained_witness :
    domainSize (buildAssembly [CSOp.alloc] : KeypairAssembly (ZMod 5)).num_constraints = some (1, 0) ∧
    readPhase1 5 1 file0 = some phW ∧
    new ctx5 [CSOp.alloc] (some file0) =
      NewResult.err SynthesisError.UnconstrainedVariable := by
  refine ⟨by decide, by decide, ?_⟩
  exact (c6_unconstrained ctx5 [CSOp.alloc] file0 1 0 phW
    (by decide) (by decide)).1.mpr (by decide)

/-- C7 counterexample: with the Phase-1 file missing, `new` panics
(diverges) instead of returning a recoverable error result. -/
theorem c7_counterexample :
    new ctx5 [] none = NewResult.panicked ∧
    (NewResult.panicked : NewResult 5) ≠
      NewResult.err SynthesisError.IoError := by
  exact ⟨by decide, by decide⟩

/-- C7 as amended: a missing Phase-1 file makes `new` panic rather
than return an error to its caller, while a transcript that fails to
parse (short read, invalid point encoding, or identity point) does
return the recoverable `IoError` result. -/
theorem c7_amended {p : ℕ} (C : Ctx p) (ops : List (CSOp (ZMod p)))
    (bytes : List ℕ) (m k : ℕ)
    (hdom : domainSize (buildAssembly ops).num_constraints = some (m, k))
    (hread : readPhase1 p m bytes = none) :
    new C ops none = NewResult.panicked ∧
    new C ops (some bytes) = NewResult.err SynthesisError.IoError := by
  constructor
  · simp only [new, hdom]
  · simp only [new, hdom, hread]

/-- Witness for the amended C7: the trivial circuit with an empty
Phase-1 file (a short read). -/
theorem c7_amended_witness :
    readPhase1 5 1 ([] : List ℕ) = none ∧
    new ctx5 [] none = NewResult.panicked ∧
    new ctx5 [] (some []) = NewResult.err SynthesisError.IoError := by
  refine ⟨by decide, ?_, ?_⟩
  · exact (c7_amended ctx5 [] [] 1 0 (by decide) (by decide)).1
  · exact (c7_amended ctx5 [] [] 1 0 (by decide) (by decide)).2

/-! ## Claims about `contribute` (C3, C8) -/

/-- C3: `contribute` leaves `alpha_g1`, `beta_g1`, `beta_g2`,
`gamma_g2`, `IC`, `A`, `B_G1`, `B_G2` and `cs_hash` unchanged; only H,
L, the deltas and the contribution list are touched. -/
theorem c3_contribute_frame {p : ℕ} (C : Ctx p) (d s : ZMod p)
    (P P' : MPCParameters p) (r : ℕ)
    (h : contribute C d s P = some (P', r)) :
    P'.params.vk.alpha_g1 = P.params.vk.alpha_g1 ∧
    P'.params.vk.beta_g1 = P.params.vk.beta_g1 ∧
    P'.params.vk.beta_g2 = P.params.vk.beta_g2 ∧
    P'.params.vk.gamma_g2 = P.params.vk.gamma_g2 ∧
    P'.params.vk.ic = P.params.vk.ic ∧
    P'.params.a = P.params.a ∧
    P'.params.b_g1 = P.params.b_g1 ∧
    P'.params.b_g2 = P.params.b_g2 ∧
    P'.cs_hash = P.cs_hash := by
  obtain ⟨-, hP', -⟩ := contribute_inv h
  subst hP'
  exact ⟨rfl, rfl, rfl, rfl, rfl, rfl, rfl, rfl, rfl⟩

/-- Witness for C3 on the concrete instance. -/
theorem c3_contribute_frame_witness :
    contribute ctx5 2 3 P0W = some (PnW, 33) ∧
    PnW.cs_hash = P0W.cs_hash ∧ PnW.params.vk.ic = P0W.params.vk.ic := by
  refine ⟨by decide, ?_, ?_⟩
  · exact (c3_contribute_frame ctx5 2 3 P0W PnW 33 (by decide)).2.2.2.2.2.2.2.2
  · exact (c3_contribute_frame ctx5 2 3 P0W PnW 33 (by decide)).2.2.2.2.1

/-- C8 counterexample: `contribute` does not enforce the claimed
non-identity invariant.  On a state whose `delta_g1` is the identity
(a legal `MPCParameters` value) the appended public key carries the
identity as `delta_after`. -/
theorem c8_counterexample :
    (contribute ctx5 1 1 (dMPC 5)).isSome = true ∧
    (((contribute ctx5 1 1 (dMPC 5)).getD (dMPC 5, 0)).1.contributions.getLastD
      (dPk 5)).delta_after = 0 := by
  exact ⟨by decide, by decide⟩

/-- C8 as amended: when the sampled `s` is not the identity, the
hash-to-G2 point of the binding transcript is not the identity, and
the state's `delta_g1` is not the identity, the public key appended by
a successful `contribute` has none of `delta_after`, `s`, `s_delta`,
`r_delta` equal to the identity. -/
theorem c8_amended {p : ℕ} [Fact p.Prime] (C : Ctx p) (d s : ZMod p)
    (P P' : MPCParameters p) (r : ℕ)
    (h : contribute C d s P = some (P', r))
    (hs : s ≠ 0)
    (hr : C.hashG2 (keypair C d s P).transcript ≠ 0)
    (hd1 : P.params.vk.delta_g1 ≠ 0) :
    P'.contributions = P.contributions ++ [keypair C d s P] ∧
    (keypair C d s P).delta_after ≠ 0 ∧
    (keypair C d s P).s ≠ 0 ∧
    (keypair C d s P).s_delta ≠ 0 ∧
    (keypair C d s P).r_delta ≠ 0 := by
  obtain ⟨hd, hP', -⟩ := contribute_inv h
  refine ⟨by rw [hP']; rfl, ?_, hs, ?_, ?_⟩
  · exact mul_ne_zero hd hd1
  · exact mul_ne_zero hd hs
  · exact mul_ne_zero hd hr

/-- Witness for the amended C8 on the concrete instance. -/
theorem c8_amended_witness :
    contribute ctx5 2 3 P0W = some (PnW, 33) ∧
    (keypair ctx5 2 3 P0W).s_delta ≠ 0 ∧
    (keypair ctx5 2 3 P0W).delta_after ≠ 0 := by
  refine ⟨by decide, ?_, ?_⟩
  · exact (c8_amended ctx5 2 3 P0W PnW 33 (by decide) (by decide)
      (by decide) (by decide)).2.2.2.1
  · exact (c8_amended ctx5 2 3 P0W PnW 33 (by decide) (by decide)
      (by decide) (by decide)).2.1

/-! ## The return value of `verify_contribution` (claim C10) -/

theorem verify_contribution_result {p : ℕ} {C : Ctx p}
    {rhoH rhoL : ℕ → ZMod p} {before after : MPCParameters p} {res : ℕ}
    (h : verify_contribution C rhoH rhoL before after = some res) :
    res = C.hash (after.contributions.getLastD (dPk p)).write := by
  rw [verify_contribution] at h
  split at h
  · split at h
    · exact Option.noConfusion h
    · next pubkey heq =>
      dsimp only at h
      split at h
      · split at h
        · injection h with h'
          rw [← h', List.getLastD_eq_getLast?, heq]
          rfl
        · exact Option.noConfusion h
      · exact Option.noConfusion h
  · exact Option.noConfusion h

/-- C10: a successful `verify_contribution(before, after)` returns the
Blake2b-64 hash of the serialized last public key of `after`, which is
exactly the receipt `contribute` returned to the contributor who
produced `after`. -/
theorem c10_receipt {p : ℕ} (C : Ctx p) (rhoH rhoL : ℕ → ZMod p)
    (d s : ZMod p) (P P' : MPCParameters p) (r res : ℕ)
    (hc : contribute C d s P = some (P', r))
    (hv : verify_contribution C rhoH rhoL P P' = some res) :
    res = r ∧ r = C.hash ((P'.contributions.getLastD (dPk p)).write) := by
  obtain ⟨-, hP', hr⟩ := contribute_inv hc
  have hres := verify_contribution_result hv
  have hlast : P'.contributions.getLastD (dPk p) = keypair C d s P := by
    rw [hP']
    exact List.getLastD_concat _ _ _
  constructor
  · rw [hres, hlast, hr]
  · rw [hlast, hr]

/-- Witness for C10 on the concrete instance. -/
theorem c10_receipt_witness :
    verify_contribution ctx5 (fun _ => 1) (fun _ => 1) P0W PnW = some 33 ∧
    (33 : ℕ) = ctx5.hash ((PnW.contributions.getLastD (dPk 5)).write) := by
  refine ⟨by decide, ?_⟩
  exact (c10_receipt ctx5 (fun _ => 1) (fun _ => 1) 2 3 P0W PnW 33 33
    (by decide) (by decide)).2

/-! ## Serialization round-trip (claim C2) -/

theorem readPtU_enc {p : ℕ} (hp : 0 < p) (x : ZMod p) (rest : List ℕ) :
    readPtU p (encPt x ++ rest) = some (x, rest) := by
  haveI : NeZero p := ⟨hp.ne'⟩
  simp [readPtU, encPt, ZMod.val_lt x, ZMod.natCast_rightInverse x]

theorem readPtNZ_enc {p : ℕ} (hp : 0 < p) (x : ZMod p) (hx : x ≠ 0)
    (rest : List ℕ) : readPtNZ p (encPt x ++ rest) = some (x, rest) := by
  rw [readPtNZ, readPtU_enc hp]
  simp [hx]

theorem readVecNZ_enc {p : ℕ} (hp : 0 < p) :
    ∀ (v : List (ZMod p)), (∀ x ∈ v, x ≠ 0) → ∀ rest : List ℕ,
      readVecNZ p v.length ((v.map encPt).flatten ++ rest) = some (v, rest) := by
  intro v
  induction v with
  | nil => intro _ rest; rfl
  | cons x xs ih =>
    intro hx rest
    have henc : (((x :: xs).map encPt).flatten ++ rest) =
        encPt x ++ ((xs.map encPt).flatten ++ rest) := by simp
    rw [show (x :: xs).length = xs.length + 1 from rfl, readVecNZ, henc,
      readPtNZ_enc hp x (hx x (by simp))]
    dsimp only
    rw [ih (fun y hy => hx y (by simp [hy])) rest]

theorem readLenListNZ_enc {p : ℕ} (hp : 0 < p) (v : List (ZMod p))
    (hv : ∀ x ∈ v, x ≠ 0) (hlen : v.length < 2 ^ 32) (rest : List ℕ) :
    readLenListNZ p (writeLenList v ++ rest) = some (v, rest) := by
  have : writeLenList v ++ rest =
      (v.length % 2 ^ 32) :: ((v.map encPt).flatten ++ rest) := by
    simp [writeLenList]
  rw [this, readLenListNZ]
  rw [Nat.mod_eq_of_lt hlen]
  exact readVecNZ_enc hp v hv rest

theorem vk_read_enc {p : ℕ} (hp : 0 < p) (vk : VerifyingKey p)
    (hic : ∀ x ∈ vk.ic, x ≠ 0) (hlen : vk.ic.length < 2 ^ 32)
    (rest : List ℕ) :
    VerifyingKey.read p (vk.write ++ rest) = some (vk, rest) := by
  simp [VerifyingKey.read, VerifyingKey.write, List.append_assoc,
    readPtU_enc hp, readLenListNZ_enc hp _ hic hlen]

theorem pk_read_enc {p : ℕ} (hp : 0 < p) (pk : PublicKey p)
    (h1 : pk.delta_after ≠ 0) (h2 : pk.s ≠ 0) (h3 : pk.s_delta ≠ 0)
    (h4 : pk.r_delta ≠ 0) (rest : List ℕ) :
    PublicKey.read p (pk.write ++ rest) = some (pk, rest) := by
  simp [PublicKey.read, PublicKey.write, List.append_assoc,
    readPtNZ_enc hp _ h1, readPtNZ_enc hp _ h2, readPtNZ_enc hp _ h3,
    readPtNZ_enc hp _ h4]

theorem readPubkeys_enc {p : ℕ} (hp : 0 < p) :
    ∀ (v : List (PublicKey p)),
      (∀ pk ∈ v, pk.delta_after ≠ 0 ∧ pk.s ≠ 0 ∧ pk.s_delta ≠ 0 ∧
        pk.r_delta ≠ 0) →
      ∀ rest : List ℕ,
        readPubkeys p v.length ((v.map PublicKey.write).flatten ++ rest) =
          some (v, rest) := by
  intro v
  induction v with
  | nil => intro _ rest; rfl
  | cons pk pks ih =>
    intro hpk rest
    have hne := hpk pk (by simp)
    have henc : (((pk :: pks).map PublicKey.write).flatten ++ rest) =
        pk.write ++ ((pks.map PublicKey.write).flatten ++ rest) := by simp
    rw [show (pk :: pks).length = pks.length + 1 from rfl, readPubkeys, henc,
      pk_read_enc hp pk hne.1 hne.2.1 hne.2.2.1 hne.2.2.2]
    dsimp only
    rw [ih (fun q hq => hpk q (by simp [hq])) rest]

theorem params_read_enc {p : ℕ} (hp : 0 < p) (checked : Bool) (ps : Params p)
    (hic : ∀ x ∈ ps.vk.ic, x ≠ 0) (hlic : ps.vk.ic.length < 2 ^ 32)
    (hh : ∀ x ∈ ps.h, x ≠ 0) (hlh : ps.h.length < 2 ^ 32)
    (hl : ∀ x ∈ ps.l, x ≠ 0) (hll : ps.l.length < 2 ^ 32)
    (ha : ∀ x ∈ ps.a, x ≠ 0) (hla : ps.a.length < 2 ^ 32)
    (hb1 : ∀ x ∈ ps.b_g1, x ≠ 0) (hlb1 : ps.b_g1.length < 2 ^ 32)
    (hb2 : ∀ x ∈ ps.b_g2, x ≠ 0) (hlb2 : ps.b_g2.length < 2 ^ 32)
    (rest : List ℕ) :
    Params.read p checked (ps.write ++ rest) = some (ps, rest) := by
  simp [Params.read, Params.write, List.append_assoc,
    vk_read_enc hp ps.vk hic hlic,
    readLenListNZ_enc hp _ hh hlh, readLenListNZ_enc hp _ hl hll,
    readLenListNZ_enc hp _ ha hla, readLenListNZ_enc hp _ hb1 hlb1,
    readLenListNZ_enc hp _ hb2 hlb2]

/-- C2 counterexample: the round trip fails on a parameter value whose
contribution list holds an identity point — `PublicKey::read` rejects
it, so reading back the written bytes returns an error, not the value. -/
theorem c2_counterexample :
    MPCParameters.read 5 true (MPCParameters.write P2cx) = none ∧
    MPCParameters.read 5 true (MPCParameters.write P2cx) ≠
      some (P2cx, []) := by
  exact ⟨by decide, by decide⟩

/-- C2 as amended: for every `MPCParameters` value none of whose
serialized query or public-key points is the identity and whose vector
lengths fit in a u32, writing and then reading back yields the same
value (field by field), consuming the whole stream. -/
theorem c2_roundtrip_amended {p : ℕ} (hp : 0 < p) (checked : Bool)
    (P : MPCParameters p)
    (hic : ∀ x ∈ P.params.vk.ic, x ≠ 0)
    (hlic : P.params.vk.ic.length < 2 ^ 32)
    (hh : ∀ x ∈ P.params.h, x ≠ 0) (hlh : P.params.h.length < 2 ^ 32)
    (hl : ∀ x ∈ P.params.l, x ≠ 0) (hll : P.params.l.length < 2 ^ 32)
    (ha : ∀ x ∈ P.params.a, x ≠ 0) (hla : P.params.a.length < 2 ^ 32)
    (hb1 : ∀ x ∈ P.params.b_g1, x ≠ 0)
    (hlb1 : P.params.b_g1.length < 2 ^ 32)
    (hb2 : ∀ x ∈ P.params.b_g2, x ≠ 0)
    (hlb2 : P.params.b_g2.length < 2 ^ 32)
    (hpk : ∀ pk ∈ P.contributions, pk.delta_after ≠ 0 ∧ pk.s ≠ 0 ∧
      pk.s_delta ≠ 0 ∧ pk.r_delta ≠ 0)
    (hlc : P.contributions.length < 2 ^ 32) :
    MPCParameters.read p checked P.write = some (P, []) := by
  have hw : P.write = P.params.write ++
      (P.cs_hash :: (P.contributions.length % 2 ^ 32) ::
        ((P.contributions.map PublicKey.write).flatten ++ [])) := by
    simp [MPCParameters.write]
  rw [hw, MPCParameters.read,
    params_read_enc hp checked P.params hic hlic hh hlh hl hll ha hla
      hb1 hlb1 hb2 hlb2]
  have h3 := readPubkeys_enc hp P.contributions hpk []
  rw [List.append_nil] at h3
  have hmod : P.contributions.length % 4294967296 = P.contributions.length := by
    refine Nat.mod_eq_of_lt ?_
    have h32 : (2 : ℕ) ^ 32 = 4294967296 := by norm_num
    rw [← h32]
    exact hlc
  simp [hmod, h3]

/-- Witness for the amended C2 on the concrete initial parameters. -/
theorem c2_roundtrip_amended_witness :
    (∀ x ∈ P0W.params.vk.ic, x ≠ 0) ∧
    MPCParameters.read 5 true P0W.write = some (P0W, []) := by
  refine ⟨by decide, ?_⟩
  exact c2_roundtrip_amended (by norm_num) true P0W (by decide) (by decide)
    (by decide) (by decide) (by decide) (by decide) (by decide) (by decide)
    (by decide) (by decide) (by decide) (by decide) (by decide) (by decide)

/-! ## The full contribution chain (claim C1) -/

theorem fieldInv_mul_cancel {p : ℕ} [Fact p.Prime] {d : ZMod p}
    (hd : d ≠ 0) : fieldInv d * d = 1 := by
  rw [fieldInv, ← pow_succ]
  have h2 : 2 ≤ p := (Fact.out : p.Prime).two_le
  have hpe : p - 2 + 1 = p - 1 := by omega
  rw [hpe]
  exact ZMod.pow_card_sub_one_eq_one hd

theorem fieldInv_one {p : ℕ} : fieldInv (1 : ZMod p) = 1 := one_pow _

theorem fieldInv_mul {p : ℕ} (a b : ZMod p) :
    fieldInv (a * b) = fieldInv a * fieldInv b := mul_pow a b _

theorem runChain_fields {p : ℕ} (C : Ctx p) :
    ∀ (rands : List (ZMod p × ZMod p)) (P Pn : MPCParameters p)
      (rs : List ℕ), runChain C rands P = some (Pn, rs) →
      Pn.cs_hash = P.cs_hash ∧
      Pn.params.vk.alpha_g1 = P.params.vk.alpha_g1 ∧
      Pn.params.vk.beta_g1 = P.params.vk.beta_g1 ∧
      Pn.params.vk.beta_g2 = P.params.vk.beta_g2 ∧
      Pn.params.vk.gamma_g2 = P.params.vk.gamma_g2 ∧
      Pn.params.vk.ic = P.params.vk.ic ∧
      Pn.params.a = P.params.a ∧
      Pn.params.b_g1 = P.params.b_g1 ∧
      Pn.params.b_g2 = P.params.b_g2 ∧
      Pn.params.h.length = P.params.h.length ∧
      Pn.params.l.length = P.params.l.length ∧
      (∃ pks, Pn.contributions = P.contributions ++ pks) ∧
      rs.length = rands.length := by
  intro rands
  induction rands with
  | nil =>
    intro P Pn rs h
    rw [runChain] at h
    injection h with h'
    injection h' with hP hrs
    subst hP
    subst hrs
    exact ⟨rfl, rfl, rfl, rfl, rfl, rfl, rfl, rfl, rfl, rfl, rfl,
      ⟨[], (List.append_nil _).symm⟩, rfl⟩
  | cons ds rands ih =>
    intro P Pn rs h
    obtain ⟨d, s⟩ := ds
    rw [runChain] at h
    rcases hc : contribute C d s P with _ | ⟨P', r0⟩ <;> rw [hc] at h
    · exact Option.noConfusion h
    dsimp only at h
    rcases hr : runChain C rands P' with _ | ⟨Pn', rs'⟩ <;> rw [hr] at h
    · exact Option.noConfusion h
    dsimp only at h
    injection h with h'
    injection h' with hPn hrs
    subst hPn
    subst hrs
    obtain ⟨-, hP', -⟩ := contribute_inv hc
    subst hP'
    obtain ⟨g1, g2, g3, g4, g5, g6, g7, g8, g9, g10, g11,
      ⟨pks, hpks⟩, g13⟩ := ih _ _ _ hr
    refine ⟨g1, g2, g3, g4, g5, g6, g7, g8, g9, ?_, ?_, ?_, ?_⟩
    · rw [g10]
      exact List.length_map _ _
    · rw [g11]
      exact List.length_map _ _
    · refine ⟨keypair C d s P :: pks, ?_⟩
      rw [hpks]
      simp [contribState]
    · simp [g13]

theorem runChain_scale {p : ℕ} [Fact p.Prime] (C : Ctx p) :
    ∀ (rands : List (ZMod p × ZMod p)) (P Pn : MPCParameters p)
      (rs : List ℕ), runChain C rands P = some (Pn, rs) →
      ∃ D : ZMod p, D ≠ 0 ∧
        Pn.params.vk.delta_g1 = D * P.params.vk.delta_g1 ∧
        Pn.params.vk.delta_g2 = D * P.params.vk.delta_g2 ∧
        Pn.params.h = P.params.h.map (fun x => fieldInv D * x) ∧
        Pn.params.l = P.params.l.map (fun x => fieldInv D * x) := by
  intro rands
  induction rands with
  | nil =>
    intro P Pn rs h
    rw [runChain] at h
    injection h with h'
    injection h' with hP hrs
    subst hP
    refine ⟨1, one_ne_zero, (one_mul _).symm, (one_mul _).symm, ?_, ?_⟩ <;>
      simp [fieldInv_one]
  | cons ds rands ih =>
    intro P Pn rs h
    obtain ⟨d, s⟩ := ds
    rw [runChain] at h
    rcases hc : contribute C d s P with _ | ⟨P', r0⟩ <;> rw [hc] at h
    · exact Option.noConfusion h
    dsimp only at h
    rcases hr : runChain C rands P' with _ | ⟨Pn', rs'⟩ <;> rw [hr] at h
    · exact Option.noConfusion h
    dsimp only at h
    injection h with h'
    injection h' with hPn hrs
    subst hPn
    obtain ⟨hd0, hP', -⟩ := contribute_inv hc
    subst hP'
    obtain ⟨D', hD', k1, k2, k3, k4⟩ := ih _ _ _ hr
    refine ⟨D' * d, mul_ne_zero hD' hd0, ?_, ?_, ?_, ?_⟩
    · rw [k1]
      show D' * (d * P.params.vk.delta_g1) = D' * d * P.params.vk.delta_g1
      ring
    · rw [k2]
      show D' * (d * P.params.vk.delta_g2) = D' * d * P.params.vk.delta_g2
      ring
    · rw [k3]
      show (P.params.h.map (fun x => fieldInv d * x)).map
          (fun x => fieldInv D' * x) = _
      rw [List.map_map]
      refine List.map_congr_left ?_
      intro x _
      show fieldInv D' * (fieldInv d * x) = fieldInv (D' * d) * x
      rw [fieldInv_mul]
      ring
    · rw [k4]
      show (P.params.l.map (fun x => fieldInv d * x)).map
          (fun x => fieldInv D' * x) = _
      rw [List.map_map]
      refine List.map_congr_left ?_
      intro x _
      show fieldInv D' * (fieldInv d * x) = fieldInv (D' * d) * x
      rw [fieldInv_mul]
      ring

theorem verifyWalk_runChain {p : ℕ} (C : Ctx p) :
    ∀ (rands : List (ZMod p × ZMod p)) (P Pn : MPCParameters p)
      (rs : List ℕ), runChain C rands P = some (Pn, rs) →
      verifyWalk C
          ([P.cs_hash] ++ (P.contributions.map PublicKey.write).flatten)
          P.params.vk.delta_g1
          (Pn.contributions.drop P.contributions.length) =
        some (Pn.params.vk.delta_g1, rs) := by
  intro rands
  induction rands with
  | nil =>
    intro P Pn rs h
    rw [runChain] at h
    injection h with h'
    injection h' with hP hrs
    subst hP
    subst hrs
    rw [List.drop_length]
    rfl
  | cons ds rands ih =>
    intro P Pn rs h
    obtain ⟨d, s⟩ := ds
    rw [runChain] at h
    rcases hc : contribute C d s P with _ | ⟨P', r0⟩ <;> rw [hc] at h
    · exact Option.noConfusion h
    dsimp only at h
    rcases hr : runChain C rands P' with _ | ⟨Pn', rs'⟩ <;> rw [hr] at h
    · exact Option.noConfusion h
    dsimp only at h
    injection h with h'
    injection h' with hPn hrs
    subst hPn
    subst hrs
    obtain ⟨-, hP', hr0⟩ := contribute_inv hc
    subst hP'
    obtain ⟨-, -, -, -, -, -, -, -, -, -, -, ⟨pks, hpks⟩, -⟩ :=
      runChain_fields C rands _ _ _ hr
    have hpks' : Pn'.contributions =
        P.contributions ++ ([keypair C d s P] ++ pks) := by
      rw [hpks]
      simp [contribState]
    have hdropA : Pn'.contributions.drop P.contributions.length =
        keypair C d s P :: pks := by
      rw [hpks']
      exact List.drop_left _ _
    have hdropB : Pn'.contributions.drop
        (P.contributions.length + 1) = pks := by
      rw [hpks', ← List.append_assoc]
      have hdl := List.drop_left (P.contributions ++ [keypair C d s P]) pks
      rw [show (P.contributions ++ [keypair C d s P]).length =
        P.contributions.length + 1 by simp] at hdl
      exact hdl
    have ih' := ih _ _ _ hr
    have hcs' : (contribState C d s P).cs_hash = P.cs_hash := rfl
    have hcon' : (contribState C d s P).contributions =
        P.contributions ++ [keypair C d s P] := rfl
    have hd1' : (contribState C d s P).params.vk.delta_g1 =
        d * P.params.vk.delta_g1 := rfl
    rw [hcs', hcon', hd1'] at ih'
    have hacc : [P.cs_hash] ++
        ((P.contributions ++ [keypair C d s P]).map PublicKey.write).flatten =
        ([P.cs_hash] ++ (P.contributions.map PublicKey.write).flatten) ++
          (keypair C d s P).write := by
      simp
    rw [hacc] at ih'
    have hlen1 : (P.contributions ++ [keypair C d s P]).length =
        P.contributions.length + 1 := by simp
    rw [hlen1, hdropB] at ih'
    rw [hdropA, verifyWalk]
    dsimp only
    have htr : (keypair C d s P).transcript =
        C.hash ([P.cs_hash] ++ (P.contributions.map PublicKey.write).flatten ++
          encPt (keypair C d s P).s ++ encPt (keypair C d s P).s_delta) := rfl
    rw [if_pos htr]
    have c1 : same_ratio
        (C.hashG2 (C.hash
          (([P.cs_hash] ++ (P.contributions.map PublicKey.write).flatten) ++
            encPt (keypair C d s P).s ++ encPt (keypair C d s P).s_delta)),
          (keypair C d s P).r_delta)
        ((keypair C d s P).s, (keypair C d s P).s_delta) = true := by
      simp only [same_ratio, decide_eq_true_eq, keypair]
      ring
    have c2 : same_ratio
        (P.params.vk.delta_g1, (keypair C d s P).delta_after)
        (C.hashG2 (C.hash
          (([P.cs_hash] ++ (P.contributions.map PublicKey.write).flatten) ++
            encPt (keypair C d s P).s ++ encPt (keypair C d s P).s_delta)),
          (keypair C d s P).r_delta) = true := by
      simp only [same_ratio, decide_eq_true_eq, keypair]
      ring
    rw [if_pos ⟨c1, c2⟩]
    have ih'' : verifyWalk C
        ([P.cs_hash] ++ (P.contributions.map PublicKey.write).flatten ++
          (keypair C d s P).write)
        ((keypair C d s P).delta_after) pks =
        some (Pn'.params.vk.delta_g1, rs') := ih'
    rw [ih'']
    dsimp only
    rw [hr0]

theorem zipWith_mul_map_sum {p : ℕ} (c : ZMod p) :
    ∀ (rhos v : List (ZMod p)),
      (rhos.zipWith (· * ·) (v.map (fun x => c * x))).sum =
        c * (rhos.zipWith (· * ·) v).sum := by
  intro rhos
  induction rhos with
  | nil => intro v; simp
  | cons r rhos ih =>
    intro v
    cases v with
    | nil => simp
    | cons x xs =>
      simp only [List.map_cons, List.zipWith_cons_cons, List.sum_cons, ih xs]
      ring

theorem merge_pairs_map {p : ℕ} (rho : ℕ → ZMod p) (v : List (ZMod p))
    (c : ZMod p) :
    merge_pairs rho v (v.map (fun x => c * x)) =
      ((((List.range v.length).map rho).zipWith (· * ·) v).sum,
       c * (((List.range v.length).map rho).zipWith (· * ·) v).sum) := by
  rw [merge_pairs, zipWith_mul_map_sum]

/-- C1: starting from any successfully generated initial parameters,
after any sequence of successful `contribute` calls, `verify` on the
final state (with the same circuit and Phase-1 file, and any batch-check
randomness) succeeds and returns exactly the list of receipts the
`contribute` calls returned, in order, one per contribution. -/
theorem c1_verify_chain {p : ℕ} [Fact p.Prime] (C : Ctx p)
    (ops : List (CSOp (ZMod p))) (file : Option (List ℕ))
    (rands : List (ZMod p × ZMod p)) (rhoH rhoL : ℕ → ZMod p)
    (P0 Pn : MPCParameters p) (receipts : List ℕ)
    (hnew : new C ops file = NewResult.ok P0)
    (hchain : runChain C rands P0 = some (Pn, receipts)) :
    verify C ops file rhoH rhoL Pn = some receipts ∧
    receipts.length = rands.length := by
  obtain ⟨m, k, bytes, ph, hdom, hfile, hread, hass⟩ := new_ok_inv hnew
  obtain ⟨hps, hcs, hcon⟩ := newAssemble_ok_fields hass
  have hd1 : P0.params.vk.delta_g1 = 1 := by rw [hps]; rfl
  have hd2 : P0.params.vk.delta_g2 = 1 := by rw [hps]; rfl
  obtain ⟨f1, f2, f3, f4, f5, f6, f7, f8, f9, f10, f11, -, f13⟩ :=
    runChain_fields C rands P0 Pn receipts hchain
  obtain ⟨D, hD, k1, k2, k3, k4⟩ :=
    runChain_scale C rands P0 Pn receipts hchain
  have hwalk := verifyWalk_runChain C rands P0 Pn receipts hchain
  rw [hcon] at hwalk
  simp only [List.map_nil, List.flatten_nil, List.append_nil,
    List.length_nil, List.drop_zero] at hwalk
  rw [hd1] at hwalk
  refine ⟨?_, f13⟩
  rw [verify, hnew]
  dsimp only
  have hfrozen : P0.params.h.length = Pn.params.h.length ∧
      P0.params.l.length = Pn.params.l.length ∧
      P0.params.a = Pn.params.a ∧
      P0.params.b_g1 = Pn.params.b_g1 ∧
      P0.params.b_g2 = Pn.params.b_g2 ∧
      P0.params.vk.alpha_g1 = Pn.params.vk.alpha_g1 ∧
      P0.params.vk.beta_g1 = Pn.params.vk.beta_g1 ∧
      P0.params.vk.beta_g2 = Pn.params.vk.beta_g2 ∧
      P0.params.vk.gamma_g2 = Pn.params.vk.gamma_g2 ∧
      P0.params.vk.ic = Pn.params.vk.ic ∧
      P0.cs_hash = Pn.cs_hash :=
    ⟨f10.symm, f11.symm, f7.symm, f8.symm, f9.symm, f2.symm, f3.symm,
      f4.symm, f5.symm, f6.symm, f1.symm⟩
  rw [if_pos hfrozen, hwalk]
  dsimp only
  have cD1 : Pn.params.vk.delta_g1 = D := by rw [k1, hd1, mul_one]
  have cD2 : Pn.params.vk.delta_g2 = D := by rw [k2, hd2, mul_one]
  have cc1 : same_ratio ((1 : ZMod p), Pn.params.vk.delta_g1)
      (1, Pn.params.vk.delta_g2) = true := by
    simp only [same_ratio, decide_eq_true_eq]
    rw [cD1, cD2]
    ring
  have ccH : same_ratio (merge_pairs rhoH P0.params.h Pn.params.h)
      (Pn.params.vk.delta_g2, 1) = true := by
    rw [k3, merge_pairs_map, cD2]
    simp only [same_ratio, decide_eq_true_eq]
    rw [mul_one, mul_comm (fieldInv D), mul_assoc,
      fieldInv_mul_cancel hD, mul_one]
  have ccL : same_ratio (merge_pairs rhoL P0.params.l Pn.params.l)
      (Pn.params.vk.delta_g2, 1) = true := by
    rw [k4, merge_pairs_map, cD2]
    simp only [same_ratio, decide_eq_true_eq]
    rw [mul_one, mul_comm (fieldInv D), mul_assoc,
      fieldInv_mul_cancel hD, mul_one]
  rw [if_pos ⟨rfl, cc1, ccH, ccL⟩]

/-- Witness for C1 on the concrete instance: one contribution, then a
successful `verify` returning exactly that receipt. -/
theorem c1_verify_chain_witness :
    new ctx5 [] (some file0) = NewResult.ok P0W ∧
    runChain ctx5 [(2, 3)] P0W = some (PnW, rcptsW) ∧
    verify ctx5 [] (some file0) (fun _ => 1) (fun _ => 1) PnW =
      some rcptsW ∧
    rcptsW.length = 1 := by
  refine ⟨by decide, by decide, ?_, ?_⟩
  · exact (c1_verify_chain ctx5 [] (some file0) [(2, 3)] (fun _ => 1)
      (fun _ => 1) P0W PnW rcptsW (by decide) (by decide)).1
  · exact (c1_verify_chain ctx5 [] (some file0) [(2, 3)] (fun _ => 1)
      (fun _ => 1) P0W PnW rcptsW (by decide) (by decide)).2

end Phase2

